import Mathlib

/-!
Verification of the LLManpages pipeline (src/gen_samples.py, src/scrape.py).

Strings are modelled as `List Char`; Python string primitives (`find`,
`index`, slicing, `strip`, `in`) are embedded as executable functions on
`List Char`, and the two functions the claims are about
(`generate_combinations`, the per-entry body of
`generate_fine_tuning_samples`, and `extract_and_map_sections`) are
translated statement by statement.
-/

/-- Text is modelled as a list of characters; offsets are list indices. -/
abbrev Str := List Char

/-- Python `str.strip()` whitespace test, restricted to the ASCII whitespace
characters Python strips: space, tab, newline, carriage return, vertical tab
and form feed. -/
def pyIsSpace (c : Char) : Bool :=
  c == ' ' || c == '\t' || c == '\n' || c == '\r' || c == '\x0b' || c == '\x0c'

/-- Python `s.strip()`: remove whitespace from both ends. -/
def pyStrip (s : Str) : Str :=
  ((s.dropWhile pyIsSpace).reverse.dropWhile pyIsSpace).reverse

/-- Whether `needle` is an initial segment of `hay` (character-wise). -/
def strAt : Str → Str → Bool
  | [], _ => true
  | _ :: _, [] => false
  | c :: cs, d :: ds => c == d && strAt cs ds

/-- Whether `needle` occurs in `hay` starting exactly at offset `i`. -/
def substrAt (needle hay : Str) (i : Nat) : Bool :=
  strAt needle (hay.drop i)

/-- Linear scan for the first occurrence of `needle` in `hay` at an offset
of at least `i`, with explicit fuel. -/
def findFromGo (needle hay : Str) (i : Nat) : Nat → Option Nat
  | 0 => none
  | fuel + 1 =>
    if substrAt needle hay i then some i else findFromGo needle hay (i + 1) fuel

/-- Python `hay.find(needle, start)`: least offset `p ≥ start` at which
`needle` occurs, `none` (Python: `-1`) when there is none.  Python's
`needle in hay` is `findFrom needle hay 0 ≠ none` and `hay.index(needle)`
is its value when present. -/
def findFrom (needle hay : Str) (start : Nat) : Option Nat :=
  if start ≤ hay.length then findFromGo needle hay start (hay.length + 1 - start) else none

/-- Python slice `s[start:stop]` for a non-negative `start` and a possibly
negative `stop` (a negative `stop` counts from the end of the string,
clamped at 0). -/
def pySlice (s : Str) (start : Nat) (stop : Int) : Str :=
  let st : Nat := if stop < 0 then ((s.length : Int) + stop).toNat else stop.toNat
  (s.take st).drop start

/-- `itertools.combinations(l, r)`: all size-`r` subsequences of `l`, each
keeping the relative order of `l`, enumerated in lexicographic order of
positions (subsequences containing the head come first). -/
def combinations {α : Type} : Nat → List α → List (List α)
  | 0, _ => [[]]
  | _ + 1, [] => []
  | r + 1, x :: xs => (combinations r xs).map (fun c => x :: c) ++ combinations (r + 1) xs

/-- `generate_combinations` from src/gen_samples.py: for each input size `r`
in `range(1, len(sections))`, every size-`r` combination of `sections` is an
input, paired with the output `[s for s in sections if s not in input_sections]`. -/
def generate_combinations {α : Type} [DecidableEq α] (sections : List α) :
    List (List α × List α) :=
  (List.range' 1 (sections.length - 1)).flatMap (fun r =>
    (combinations r sections).map (fun input_sections =>
      (input_sections, sections.filter (fun s => decide (¬ s ∈ input_sections)))))

/-- One tagged block of the serializer in `generate_fine_tuning_samples`
(src/gen_samples.py): the f-string
`"<SECTION>{title}</SECTION>\n{sections[title].strip()}"`. -/
def sectionBlock (sections : List (Str × Str)) (title : Str) : Str :=
  "<SECTION>".toList ++ title ++ "</SECTION>".toList ++
    '\n' :: pyStrip ((sections.lookup title).getD [])

/-- One side of a sample: `"\n".join(blocks)` over the given titles. -/
def renderSide (sections : List (Str × Str)) (titles : List Str) : Str :=
  List.intercalate ['\n'] (titles.map (sectionBlock sections))

/-- Per-entry body of `generate_fine_tuning_samples` (src/gen_samples.py):
the records written for one dataset entry whose `sections` dict is given as
an association list in insertion order.  Entries with fewer than 2 or more
than 10 section titles are skipped (zero records); otherwise one record is
written per generated combination. -/
def entrySamples (sections : List (Str × Str)) : List (Str × Str) :=
  let section_titles := sections.map Prod.fst
  if section_titles.length < 2 then []
  else if 10 < section_titles.length then []
  else (generate_combinations section_titles).map (fun p =>
    (renderSide sections p.1, renderSide sections p.2))

/-- A match of the section-header regex, as produced by `re.finditer` in
`extract_and_map_sections` (src/scrape.py): `mStart`/`mEnd` are
`match.start()`/`match.end()` and `group1` is the captured title text. -/
structure ReMatch where
  mStart : Nat
  mEnd : Nat
  group1 : Str

/-- The raw content spans computed at src/scrape.py lines 107-114: span `i`
runs from `matches[i].end()` to `matches[i+1].start()`, the last one to
the end of the raw text. -/
def sectionSpans (len : Nat) : List ReMatch → List (Nat × Nat)
  | [] => []
  | [m] => [(m.mEnd, len)]
  | m :: m' :: ms => (m.mEnd, m'.mStart) :: sectionSpans len (m' :: ms)

/-- Python dict assignment `d[k] = v` on an association list kept in
insertion order: an existing key keeps its position and gets the new value,
a new key is appended. -/
def dictInsert (d : List (Str × Str)) (k v : Str) : List (Str × Str) :=
  if d.any (fun p => p.1 == k) then
    d.map (fun p => if p.1 == k then (k, v) else p)
  else d ++ [(k, v)]

/-- The `subsections` dict built at src/scrape.py lines 107-114: for each
regex match, the stripped title is mapped to the stripped raw slice between
the match end and the next match start (end of text for the last). -/
def subsectionsOf (mts : List ReMatch) (groff : Str) : List (Str × Str) :=
  (mts.zip (sectionSpans groff.length mts)).foldl
    (fun d p => dictInsert d (pyStrip p.1.group1) (pyStrip (pySlice groff p.2.1 (p.2.2 : Int))))
    []

/-- The alignment loop of `extract_and_map_sections` (src/scrape.py lines
116-134), returning for every retained title its content start offset and
its Python end index (which is `-1` when `find` fails for the next title):
for each title in order, if the title occurs in the rendered text, its
content starts just past `cleaned.index(title)` (searched from offset 0)
and ends at `cleaned.find(next_title, start)` (`-1` when absent), or at the
end of the text for the last title; titles that do not occur are skipped. -/
def mappedSectionsAux (cleaned : Str) : List Str → List (Str × Nat × Int)
  | [] => []
  | t :: rest =>
    match findFrom t cleaned 0 with
    | none => mappedSectionsAux cleaned rest
    | some pos =>
      let st := pos + t.length
      let e : Int :=
        match rest with
        | [] => (cleaned.length : Int)
        | next :: _ =>
          match findFrom next cleaned st with
          | none => -1
          | some q => (q : Int)
      (t, st, e) :: mappedSectionsAux cleaned rest

/-- The `mapped_sections` mapping of `extract_and_map_sections`
(src/scrape.py lines 116-134): each retained title maps to the stripped
slice `cleaned_content[start:end]`.  `titles` are the (distinct) keys of
the `subsections` dict in insertion order. -/
def mappedSections (cleaned : Str) (titles : List Str) : List (Str × Str) :=
  (mappedSectionsAux cleaned titles).map (fun x => (x.1, pyStrip (pySlice cleaned x.2.1 x.2.2)))

/-- `extract_and_map_sections` (src/scrape.py lines 96-136) given the regex
matches over the raw groff text: empty result when there are no matches,
otherwise the alignment of the `subsections` keys against the rendered
text. -/
def extract_and_map_sections (mts : List ReMatch) (groff cleaned : Str) :
    List (Str × Str) :=
  if mts.isEmpty then []
  else mappedSections cleaned ((subsectionsOf mts groff).map Prod.fst)

/-- Cursor-based alignment as the spec describes it (spec §4.2), written
from the spec's words for comparison with `mappedSections`: walk the titles
in document order with a monotonically advancing cursor; locate each
title's first occurrence at or after the cursor (a title that cannot be
located is dropped and the cursor stays); content begins immediately after
that occurrence and ends at the next title's occurrence found at or after
the new cursor, or at end-of-text for the last title; contents are
trimmed. -/
def cursorAlign (cleaned : Str) (cursor : Nat) : List Str → List (Str × Str)
  | [] => []
  | t :: rest =>
    match findFrom t cleaned cursor with
    | none => cursorAlign cleaned cursor rest
    | some pos =>
      let st := pos + t.length
      let e : Nat :=
        match rest with
        | [] => cleaned.length
        | next :: _ => (findFrom next cleaned st).getD cleaned.length
      (t, pyStrip (pySlice cleaned st (e : Int))) :: cursorAlign cleaned st rest

/-- Side condition under which the code's from-the-start searches and the
spec's cursor coincide: every title's first occurrence in the rendered text
(searched from offset 0) lies at or after `lo`, and recursively each later
title's first occurrence lies at or after the end of the previous title's
occurrence. -/
def firstOccursFrom (cleaned : Str) : List Str → Nat → Bool
  | [], _ => true
  | t :: rest, lo =>
    match findFrom t cleaned 0 with
    | none => false
    | some p => decide (lo ≤ p) && firstOccursFrom cleaned rest (p + t.length)

/-! Helper lemmas about `combinations` and `generate_combinations`. -/

theorem combinations_length {α : Type} : ∀ (r : Nat) (l : List α),
    (combinations r l).length = l.length.choose r
  | 0, l => by simp [combinations]
  | r + 1, [] => by simp [combinations]
  | r + 1, x :: xs => by
    simp [combinations, List.length_append, List.length_map,
      combinations_length r xs, combinations_length (r + 1) xs,
      Nat.choose_succ_succ, List.length_cons]

theorem mem_combinations_sublist {α : Type} : ∀ (r : Nat) (l c : List α),
    c ∈ combinations r l → c.Sublist l
  | 0, l, c, h => by
    simp [combinations] at h
    subst h
    exact List.nil_sublist l
  | r + 1, [], c, h => by simp [combinations] at h
  | r + 1, x :: xs, c, h => by
    rw [combinations, List.mem_append] at h
    rcases h with h | h
    · rw [List.mem_map] at h
      obtain ⟨c', hc', rfl⟩ := h
      exact (mem_combinations_sublist r xs c' hc').cons₂ x
    · exact (mem_combinations_sublist (r + 1) xs c h).cons x

theorem mem_combinations_length {α : Type} : ∀ (r : Nat) (l c : List α),
    c ∈ combinations r l → c.length = r
  | 0, l, c, h => by simp [combinations] at h; subst h; rfl
  | r + 1, [], c, h => by simp [combinations] at h
  | r + 1, x :: xs, c, h => by
    rw [combinations, List.mem_append] at h
    rcases h with h | h
    · rw [List.mem_map] at h
      obtain ⟨c', hc', rfl⟩ := h
      simp [mem_combinations_length r xs c' hc']
    · exact mem_combinations_length (r + 1) xs c h

theorem sum_map_range (f : Nat → Nat) : ∀ (m : Nat),
    ((List.range m).map f).sum = ∑ i ∈ Finset.range m, f i
  | 0 => by simp
  | m + 1 => by
    rw [List.range_succ, Finset.sum_range_succ]
    simp [sum_map_range f m]

theorem sum_range'_choose (n : Nat) (hn : 1 ≤ n) :
    ((List.range' 1 (n - 1)).map n.choose).sum + 2 = 2 ^ n := by
  obtain ⟨m, rfl⟩ : ∃ m, n = m + 1 := ⟨n - 1, by omega⟩
  have h1 : List.range (m + 2) = 0 :: (List.range' 1 m ++ [m + 1]) := by
    rw [List.range_eq_range', List.range'_succ, List.range'_concat]
    norm_num [Nat.add_comm]
  have h2 := Nat.sum_range_choose (m + 1)
  rw [show m + 1 + 1 = m + 2 from rfl] at h2
  have h3 := sum_map_range ((m + 1).choose) (m + 2)
  rw [h1] at h3
  simp only [List.map_cons, List.map_append, List.map_nil, List.sum_cons,
    List.sum_append, List.sum_nil, Nat.choose_zero_right,
    Nat.choose_self] at h3
  simp only [Nat.add_sub_cancel]
  omega

theorem generate_combinations_length {α : Type} [DecidableEq α] (l : List α) :
    (generate_combinations l).length = 2 ^ l.length - 2 := by
  rcases l with _ | ⟨x, xs⟩
  · rfl
  · rw [generate_combinations, List.length_flatMap]
    have hmap : List.map (List.length ∘ fun r =>
        (combinations r (x :: xs)).map (fun input_sections =>
          (input_sections, (x :: xs).filter (fun s => decide (¬ s ∈ input_sections)))))
        (List.range' 1 ((x :: xs).length - 1)) =
        List.map ((x :: xs).length.choose) (List.range' 1 ((x :: xs).length - 1)) := by
      apply List.map_congr_left
      intro r _
      simp [combinations_length]
    rw [hmap]
    have := sum_range'_choose (x :: xs).length (by simp)
    omega

theorem mem_generate_combinations {α : Type} [DecidableEq α] {l : List α}
    {p : List α × List α} (hp : p ∈ generate_combinations l) :
    ∃ r, 1 ≤ r ∧ r + 1 ≤ l.length ∧ p.1 ∈ combinations r l ∧
      p.2 = l.filter (fun s => decide (¬ s ∈ p.1)) := by
  rw [generate_combinations, List.mem_flatMap] at hp
  obtain ⟨r, hr, hp⟩ := hp
  rw [List.mem_range'_1] at hr
  rw [List.mem_map] at hp
  obtain ⟨c, hc, rfl⟩ := hp
  exact ⟨r, hr.1, by omega, hc, rfl⟩

/-! Helper lemmas about `findFrom`: it returns the least offset at or past
`start` at which the needle occurs. -/

theorem findFromGo_some {needle hay : Str} :
    ∀ (fuel i p : Nat), findFromGo needle hay i fuel = some p →
      i ≤ p ∧ p < i + fuel ∧ substrAt needle hay p = true ∧
        ∀ q, i ≤ q → q < p → substrAt needle hay q = false
  | 0, i, p, h => by simp [findFromGo] at h
  | fuel + 1, i, p, h => by
    rw [findFromGo] at h
    by_cases hs : substrAt needle hay i = true
    · rw [if_pos hs] at h
      cases h
      exact ⟨Nat.le_refl _, by omega, hs, fun q hq1 hq2 => by omega⟩
    · rw [if_neg hs] at h
      obtain ⟨h1, h2, h3, h4⟩ := findFromGo_some fuel (i + 1) p h
      refine ⟨by omega, by omega, h3, fun q hq1 hq2 => ?_⟩
      rcases Nat.eq_or_lt_of_le hq1 with rfl | hlt
      · exact Bool.not_eq_true _ |>.mp hs
      · exact h4 q hlt hq2

theorem findFromGo_eq_some {needle hay : Str} :
    ∀ (fuel i p : Nat), i ≤ p → p < i + fuel → substrAt needle hay p = true →
      (∀ q, i ≤ q → q < p → substrAt needle hay q = false) →
      findFromGo needle hay i fuel = some p
  | 0, i, p, h1, h2, _, _ => by omega
  | fuel + 1, i, p, h1, h2, h3, h4 => by
    rw [findFromGo]
    rcases Nat.eq_or_lt_of_le h1 with rfl | hlt
    · rw [if_pos h3]
    · rw [if_neg (by simp [h4 i (Nat.le_refl i) hlt])]
      exact findFromGo_eq_some fuel (i + 1) p hlt (by omega) h3
        (fun q hq1 hq2 => h4 q (by omega) hq2)

theorem findFrom_some {needle hay : Str} {s p : Nat}
    (h : findFrom needle hay s = some p) :
    s ≤ p ∧ p ≤ hay.length ∧ substrAt needle hay p = true ∧
      ∀ q, s ≤ q → q < p → substrAt needle hay q = false := by
  rw [findFrom] at h
  by_cases hs : s ≤ hay.length
  · rw [if_pos hs] at h
    obtain ⟨h1, h2, h3, h4⟩ := findFromGo_some _ _ _ h
    exact ⟨h1, by omega, h3, h4⟩
  · rw [if_neg hs] at h
    cases h

theorem findFrom_shift {needle hay : Str} {p lo : Nat}
    (h : findFrom needle hay 0 = some p) (hlo : lo ≤ p) :
    findFrom needle hay lo = some p := by
  obtain ⟨_, hp, h3, h4⟩ := findFrom_some h
  rw [findFrom, if_pos (by omega : lo ≤ hay.length)]
  exact findFromGo_eq_some _ lo p hlo (by omega) h3
    (fun q hq1 hq2 => h4 q (Nat.zero_le q) hq2)

/-! Helper lemmas about the alignment loop. -/

theorem mappedSectionsAux_keys (cleaned : Str) : ∀ (titles : List Str),
    (mappedSectionsAux cleaned titles).map (fun x => x.1) =
      titles.filter (fun t => (findFrom t cleaned 0).isSome)
  | [] => by simp [mappedSectionsAux]
  | t :: rest => by
    rw [mappedSectionsAux, List.filter_cons]
    cases h : findFrom t cleaned 0 with
    | none => simpa [h] using mappedSectionsAux_keys cleaned rest
    | some pos => simpa [h] using mappedSectionsAux_keys cleaned rest

theorem mappedSections_keys (cleaned : Str) (titles : List Str) :
    (mappedSections cleaned titles).map Prod.fst =
      titles.filter (fun t => (findFrom t cleaned 0).isSome) := by
  rw [mappedSections, List.map_map]
  exact mappedSectionsAux_keys cleaned titles

theorem pySlice_neg_one (s : Str) (st : Nat) :
    pySlice s st (-1) = (s.take (s.length - 1)).drop st := by
  rw [pySlice]
  norm_num
  rw [show ((s.length : Int) + -1).toNat = s.length - 1 by omega]

theorem mappedSectionsAux_ordered (cleaned : Str) :
    ∀ (titles : List Str) (lo : Nat),
      firstOccursFrom cleaned titles lo = true →
      (∀ t, t ∈ titles → t ≠ []) →
      (mappedSectionsAux cleaned titles).map (fun x => x.1) = titles ∧
      List.Chain' (fun a b => a.2.2 ≤ (b.2.1 : Int) ∧ a.2.1 < b.2.1)
        (mappedSectionsAux cleaned titles) ∧
      ∀ x ∈ mappedSectionsAux cleaned titles,
        ∃ pt, findFrom x.1 cleaned 0 = some pt ∧ x.2.1 = pt + x.1.length ∧ lo ≤ pt
  | [], lo, _, _ => by simp [mappedSectionsAux]
  | t :: rest, lo, hocc, hne => by
    rw [firstOccursFrom] at hocc
    rcases hfind : findFrom t cleaned 0 with _ | p
    · rw [hfind] at hocc
      simp at hocc
    · rw [hfind] at hocc
      simp only [Bool.and_eq_true, decide_eq_true_iff] at hocc
      obtain ⟨hlop, hrest⟩ := hocc
      obtain ⟨ih1, ih2, ih3⟩ := mappedSectionsAux_ordered cleaned rest (p + t.length) hrest
        (fun t' ht' => hne t' (List.mem_cons_of_mem _ ht'))
      cases rest with
      | nil =>
        rw [mappedSectionsAux]
        simp only [hfind]
        refine ⟨rfl, List.chain'_singleton _, ?_⟩
        intro x hx
        simp only [mappedSectionsAux, List.mem_singleton] at hx
        subst hx
        exact ⟨p, hfind, rfl, hlop⟩
      | cons next rest' =>
        have hrest2 := hrest
        rw [firstOccursFrom] at hrest2
        rcases hfind' : findFrom next cleaned 0 with _ | p'
        · rw [hfind'] at hrest2; simp at hrest2
        · rw [hfind'] at hrest2
          simp only [Bool.and_eq_true, decide_eq_true_iff] at hrest2
          obtain ⟨hp'lo, _⟩ := hrest2
          have hshift : findFrom next cleaned (p + t.length) = some p' :=
            findFrom_shift hfind' hp'lo
          rw [mappedSectionsAux]
          simp only [hfind, hshift]
          cases haux : mappedSectionsAux cleaned (next :: rest') with
          | nil => rw [haux] at ih1; simp at ih1
          | cons y tl =>
            rw [haux] at ih1 ih2 ih3
            obtain ⟨pt, hptfind, hy1, hy2⟩ := ih3 y (List.mem_cons_self y tl)
            have hy0 : y.1 = next := by
              rw [List.map_cons] at ih1
              exact (List.cons_eq_cons.mp ih1).1
            rw [hy0, hfind'] at hptfind
            have hpt : p' = pt := Option.some.inj hptfind
            subst hpt
            refine ⟨?_, ?_, ?_⟩
            · rw [List.map_cons, ih1]
            · rw [List.chain'_cons]
              refine ⟨⟨?_, ?_⟩, ih2⟩
              · show (p' : Int) ≤ (y.2.1 : Int)
                rw [hy1, hy0]
                exact_mod_cast Nat.le_add_right p' next.length
              · show p + t.length < y.2.1
                rw [hy1, hy0]
                have hnz : next ≠ [] := hne next (by simp)
                have hlen : 0 < next.length := List.length_pos.mpr hnz
                omega
            · intro x hx
              rcases List.mem_cons.mp hx with rfl | hx2
              · exact ⟨p, hfind, rfl, hlop⟩
              · obtain ⟨pt2, h1, h2, h3⟩ := ih3 x hx2
                exact ⟨pt2, h1, h2, by omega⟩

theorem cursorAlign_eq_mappedSections (cleaned : Str) :
    ∀ (titles : List Str) (lo : Nat),
      firstOccursFrom cleaned titles lo = true →
      cursorAlign cleaned lo titles = mappedSections cleaned titles
  | [], lo, _ => by simp [cursorAlign, mappedSections, mappedSectionsAux]
  | t :: rest, lo, hocc => by
    rw [firstOccursFrom] at hocc
    rcases hfind : findFrom t cleaned 0 with _ | p
    · rw [hfind] at hocc
      simp at hocc
    · rw [hfind] at hocc
      simp only [Bool.and_eq_true, decide_eq_true_iff] at hocc
      obtain ⟨hlop, hrest⟩ := hocc
      have hshift0 : findFrom t cleaned lo = some p := findFrom_shift hfind hlop
      have ih := cursorAlign_eq_mappedSections cleaned rest (p + t.length) hrest
      rw [cursorAlign, mappedSections, mappedSectionsAux]
      simp only [hfind, hshift0]
      cases rest with
      | nil =>
        simp [cursorAlign, mappedSections, mappedSectionsAux]
      | cons next rest' =>
        have hrest2 := hrest
        rw [firstOccursFrom] at hrest2
        rcases hfind' : findFrom next cleaned 0 with _ | p'
        · rw [hfind'] at hrest2; simp at hrest2
        · rw [hfind'] at hrest2
          simp only [Bool.and_eq_true, decide_eq_true_iff] at hrest2
          obtain ⟨hp'lo, _⟩ := hrest2
          have hshift : findFrom next cleaned (p + t.length) = some p' :=
            findFrom_shift hfind' hp'lo
          simp only [hshift, Option.getD_some, List.map_cons, List.cons.injEq]
          exact ⟨trivial, by rw [ih, mappedSections]⟩

/-! Further shared helper lemmas. -/

theorem assoc_value_eq {α β : Type} : ∀ (l : List (α × β)),
    (l.map Prod.fst).Nodup → ∀ (k : α) (v v' : β), (k, v) ∈ l → (k, v') ∈ l → v = v'
  | [], _, k, v, v', h1, _ => by cases h1
  | x :: l, hnd, k, v, v', h1, h2 => by
    rw [List.map_cons, List.nodup_cons] at hnd
    rcases List.mem_cons.mp h1 with h1' | h1' <;> rcases List.mem_cons.mp h2 with h2' | h2'
    · rw [← h1'] at h2'
      exact congrArg Prod.snd h2'.symm
    · exfalso
      apply hnd.1
      have hm := List.mem_map_of_mem Prod.fst h2'
      rw [← h1']
      exact hm
    · exfalso
      apply hnd.1
      have hm := List.mem_map_of_mem Prod.fst h1'
      rw [← h2']
      exact hm
    · exact assoc_value_eq l hnd.2 k v v' h1' h2'

theorem sorted_of_const {l : List Nat} {a : Nat} (h : ∀ x ∈ l, x = a) :
    l.Sorted (· ≤ ·) := by
  induction l with
  | nil => simp
  | cons b l ih =>
    rw [List.sorted_cons]
    refine ⟨fun c hc => ?_, ih (fun x hx => h x (List.mem_cons_of_mem _ hx))⟩
    rw [h b (List.mem_cons_self b l), h c (List.mem_cons_of_mem _ hc)]

theorem sorted_flatMap_const {l : List Nat} {f : Nat → List Nat}
    (hl : l.Sorted (· ≤ ·)) (hf : ∀ a ∈ l, ∀ x ∈ f a, x = a) :
    (l.flatMap f).Sorted (· ≤ ·) := by
  induction l with
  | nil => simp
  | cons a l ih =>
    rw [List.flatMap_cons]
    rw [List.sorted_cons] at hl
    rw [List.Sorted] at *
    rw [List.pairwise_append]
    refine ⟨sorted_of_const (hf a (List.mem_cons_self a l)),
      ih hl.2 (fun b hb => hf b (List.mem_cons_of_mem _ hb)), ?_⟩
    intro x hx y hy
    rw [hf a (List.mem_cons_self a l) x hx]
    rw [List.mem_flatMap] at hy
    obtain ⟨b, hb, hyb⟩ := hy
    rw [hf b (List.mem_cons_of_mem _ hb) y hyb]
    exact hl.1 b hb

theorem sorted_range' : ∀ (s n : Nat), (List.range' s n).Sorted (· ≤ ·)
  | _, 0 => by simp
  | s, n + 1 => by
    rw [List.range'_succ, List.sorted_cons]
    exact ⟨fun b hb => by rw [List.mem_range'_1] at hb; omega, sorted_range' (s + 1) n⟩

theorem mappedSectionsAux_mem_append (cleaned : Str) :
    ∀ (pre : List Str) (t next : Str) (rest : List Str) (p : Nat),
      findFrom t cleaned 0 = some p →
      findFrom next cleaned (p + t.length) = none →
      (t, p + t.length, (-1 : Int)) ∈ mappedSectionsAux cleaned (pre ++ t :: next :: rest)
  | [], t, next, rest, p, hp, hnext => by
    rw [List.nil_append, mappedSectionsAux]
    simp only [hp, hnext]
    exact List.mem_cons_self _ _
  | a :: pre, t, next, rest, p, hp, hnext => by
    rw [List.cons_append, mappedSectionsAux]
    have ih := mappedSectionsAux_mem_append cleaned pre t next rest p hp hnext
    rcases ha : findFrom a cleaned 0 with _ | q
    · simpa [ha] using ih
    · simp only [ha]
      exact List.mem_cons_of_mem _ ih

theorem sectionSpans_struct (len : Nat) :
    ∀ (m : ReMatch) (ms : List ReMatch),
      List.Chain' (fun a b => a.mEnd ≤ b.mStart) (m :: ms) →
      (∀ x ∈ m :: ms, x.mStart ≤ x.mEnd ∧ x.mEnd ≤ len) →
      (sectionSpans len (m :: ms)).map Prod.fst = (m :: ms).map ReMatch.mEnd ∧
      (sectionSpans len (m :: ms)).map Prod.snd = ms.map ReMatch.mStart ++ [len] ∧
      List.Chain' (fun a b => a.2 ≤ b.1) (sectionSpans len (m :: ms)) ∧
      ∀ sp ∈ sectionSpans len (m :: ms), sp.1 ≤ sp.2
  | m, [], _, hwf => by
    rw [sectionSpans]
    refine ⟨rfl, rfl, List.chain'_singleton _, ?_⟩
    intro sp hsp
    rw [List.mem_singleton] at hsp
    subst hsp
    exact (hwf m (List.mem_cons_self m [])).2
  | m, m' :: ms, hch, hwf => by
    obtain ⟨ih1, ih2, ih3, ih4⟩ := sectionSpans_struct len m' ms
      (List.chain'_cons.mp hch).2 (fun x hx => hwf x (List.mem_cons_of_mem _ hx))
    rw [sectionSpans]
    refine ⟨?_, ?_, ?_, ?_⟩
    · rw [List.map_cons, ih1]
      simp
    · rw [List.map_cons, ih2]
      simp
    · refine List.chain'_cons'.mpr ⟨?_, ih3⟩
      intro y hy
      cases hsp : sectionSpans len (m' :: ms) with
      | nil => rw [hsp] at hy; cases hy
      | cons z tl =>
        rw [hsp] at hy ih1
        rw [List.head?_cons, Option.mem_some_iff] at hy
        subst hy
        have hz : z.1 = m'.mEnd := by
          rw [List.map_cons] at ih1
          exact (List.cons_eq_cons.mp ih1).1
        show (m.mEnd, m'.mStart).2 ≤ z.1
        rw [hz]
        exact (hwf m' (List.mem_cons_of_mem _ (List.mem_cons_self m' ms))).1
    · intro sp hsp
      rcases List.mem_cons.mp hsp with rfl | h
      · exact (List.chain'_cons.mp hch).1
      · exact ih4 sp h

/-! Claim theorems. -/

/-- C1: for every list of `n` pairwise-distinct section titles with
`2 ≤ n ≤ 10`, `generate_combinations` returns exactly `2 ^ n - 2` pairs,
and for every returned pair the input and output titles are disjoint, their
union is the full title set, and the output titles are exactly the set
difference of all titles and the input titles. -/
theorem C1_partition_invariants {α : Type} [DecidableEq α]
    (titles : List α) (hnd : titles.Nodup) (h2 : 2 ≤ titles.length)
    (h10 : titles.length ≤ 10) :
    (generate_combinations titles).length = 2 ^ titles.length - 2 ∧
    ∀ p ∈ generate_combinations titles,
      (∀ t, t ∈ p.1 → t ∉ p.2) ∧
      (∀ t, t ∈ titles ↔ (t ∈ p.1 ∨ t ∈ p.2)) ∧
      (∀ t, t ∈ p.2 ↔ (t ∈ titles ∧ t ∉ p.1)) := by
  refine ⟨generate_combinations_length titles, ?_⟩
  intro p hp
  obtain ⟨r, hr1, hr2, hc, hfil⟩ := mem_generate_combinations hp
  have hsub : p.1.Sublist titles := mem_combinations_sublist r titles p.1 hc
  have hmem2 : ∀ t, t ∈ p.2 ↔ (t ∈ titles ∧ t ∉ p.1) := by
    intro t
    rw [hfil, List.mem_filter, decide_eq_true_iff]
  refine ⟨?_, ?_, hmem2⟩
  · intro t ht1 ht2
    exact ((hmem2 t).mp ht2).2 ht1
  · intro t
    constructor
    · intro ht
      by_cases h : t ∈ p.1
      · exact Or.inl h
      · exact Or.inr ((hmem2 t).mpr ⟨ht, h⟩)
    · intro h
      rcases h with h | h
      · exact hsub.subset h
      · exact ((hmem2 t).mp h).1

theorem C1_witness :
    ([0, 1, 2] : List Nat).Nodup ∧ 2 ≤ ([0, 1, 2] : List Nat).length ∧
      ([0, 1, 2] : List Nat).length ≤ 10 ∧
      ((generate_combinations [0, 1, 2]).length = 2 ^ ([0, 1, 2] : List Nat).length - 2 ∧
      ∀ p ∈ generate_combinations [0, 1, 2],
        (∀ t, t ∈ p.1 → t ∉ p.2) ∧
        (∀ t, t ∈ ([0, 1, 2] : List Nat) ↔ (t ∈ p.1 ∨ t ∈ p.2)) ∧
        (∀ t, t ∈ p.2 ↔ (t ∈ ([0, 1, 2] : List Nat) ∧ t ∉ p.1))) :=
  ⟨by decide, by decide, by decide,
    C1_partition_invariants [0, 1, 2] (by decide) (by decide) (by decide)⟩

/-- C6: for every list of `n ≥ 2` distinct titles, `generate_combinations`
enumerates pairs ordered by input-subset size from 1 to `n - 1` (the list
of input lengths is non-decreasing and every input length lies in
`[1, n-1]`), every input subset lists its titles in the titles' original
relative order (each input is a sublist of the title list), and the output
is the deterministic filter of the title list by non-membership in the
input. -/
theorem C6_enumeration_order {α : Type} [DecidableEq α] (titles : List α)
    (hnd : titles.Nodup) (h2 : 2 ≤ titles.length) :
    ((generate_combinations titles).map (fun p => p.1.length)).Sorted (· ≤ ·) ∧
    ∀ p ∈ generate_combinations titles,
      p.1.Sublist titles ∧ 1 ≤ p.1.length ∧ p.1.length ≤ titles.length - 1 ∧
      p.2 = titles.filter (fun s => decide (¬ s ∈ p.1)) := by
  constructor
  · rw [generate_combinations, List.map_flatMap]
    apply sorted_flatMap_const (sorted_range' 1 (titles.length - 1))
    intro r _ x hx
    rw [List.map_map, List.mem_map] at hx
    obtain ⟨c, hc, rfl⟩ := hx
    exact mem_combinations_length r titles c hc
  · intro p hp
    obtain ⟨r, hr1, hr2, hc, hfil⟩ := mem_generate_combinations hp
    have hlen := mem_combinations_length r titles p.1 hc
    exact ⟨mem_combinations_sublist r titles p.1 hc, by omega, by omega, hfil⟩

theorem C6_witness :
    ((generate_combinations ([0, 1, 2] : List Nat)).map
        (fun p => p.1.length)).Sorted (· ≤ ·) ∧
    ∀ p ∈ generate_combinations ([0, 1, 2] : List Nat),
      p.1.Sublist [0, 1, 2] ∧ 1 ≤ p.1.length ∧
      p.1.length ≤ ([0, 1, 2] : List Nat).length - 1 ∧
      p.2 = ([0, 1, 2] : List Nat).filter (fun s => decide (¬ s ∈ p.1)) :=
  C6_enumeration_order [0, 1, 2] (by decide) (by decide)

/-- C10: for every input list with fewer than 2 elements (the empty list or
a singleton), `generate_combinations` returns the empty list rather than
failing. -/
theorem C10_short_input {α : Type} [DecidableEq α] (s : List α)
    (h : s.length < 2) : generate_combinations s = [] := by
  rcases s with _ | ⟨a, _ | ⟨b, l⟩⟩
  · rfl
  · rfl
  · simp only [List.length_cons] at h
    omega

theorem C10_witness :
    generate_combinations ([] : List Nat) = [] ∧
      generate_combinations (["NAME".toList]) = [] :=
  ⟨C10_short_input [] (by decide), C10_short_input ["NAME".toList] (by decide)⟩

/-- Unfolded form of `entrySamples` with the gate conditions expressed on
the length of the section list itself. -/
theorem entrySamples_eq (sections : List (Str × Str)) :
    entrySamples sections =
      if sections.length < 2 then []
      else if 10 < sections.length then []
      else (generate_combinations (sections.map Prod.fst)).map (fun p =>
        (renderSide sections p.1, renderSide sections p.2)) := by
  simp only [entrySamples, List.length_map]

/-- C4: the section-count gate accepts a document iff its section mapping
has between 2 and 10 sections inclusive: a document with fewer than 2 or
more than 10 sections produces zero records, while any document with
`2 ≤ n ≤ 10` sections proceeds to combination generation (its records are
exactly the serialized combinations, of which there is at least one). -/
theorem C4_section_count_gate (sections : List (Str × Str)) :
    (entrySamples sections = [] ↔
      sections.length < 2 ∨ 10 < sections.length) ∧
    (2 ≤ sections.length → sections.length ≤ 10 →
      entrySamples sections =
        (generate_combinations (sections.map Prod.fst)).map (fun p =>
          (renderSide sections p.1, renderSide sections p.2))) := by
  have he := entrySamples_eq sections
  constructor
  · constructor
    · intro h
      by_contra hn
      push_neg at hn
      rw [he, if_neg (by omega), if_neg (by omega)] at h
      rw [List.map_eq_nil_iff] at h
      have hg := generate_combinations_length (sections.map Prod.fst)
      rw [h, List.length_map] at hg
      have h4 : (4 : Nat) ≤ 2 ^ sections.length := by
        calc (4 : Nat) = 2 ^ 2 := rfl
        _ ≤ 2 ^ sections.length := Nat.pow_le_pow_right (by norm_num) hn.1
      simp only [List.length_nil] at hg
      omega
    · intro h
      rcases h with h | h
      · rw [he, if_pos h]
      · rw [he]
        by_cases h2 : sections.length < 2
        · rw [if_pos h2]
        · rw [if_neg h2, if_pos h]
  · intro h1 h2
    rw [he, if_neg (by omega), if_neg (by omega)]

theorem C4_witness :
    (entrySamples [("A".toList, "a".toList)] = [] ↔
      ([("A".toList, "a".toList)] : List (Str × Str)).length < 2 ∨
        10 < ([("A".toList, "a".toList)] : List (Str × Str)).length) ∧
    entrySamples [("A".toList, "a".toList), ("B".toList, "b".toList)] =
      (generate_combinations
          ([("A".toList, "a".toList), ("B".toList, "b".toList)].map Prod.fst)).map
        (fun p => (renderSide [("A".toList, "a".toList), ("B".toList, "b".toList)] p.1,
          renderSide [("A".toList, "a".toList), ("B".toList, "b".toList)] p.2)) :=
  ⟨(C4_section_count_gate [("A".toList, "a".toList)]).1,
    (C4_section_count_gate [("A".toList, "a".toList), ("B".toList, "b".toList)]).2
      (by decide) (by decide)⟩

/-- C5: each side of a sample is rendered over titles in document order
(both the input and the output title list of every generated pair are
sublists of the document's title list, and `renderSide` emits one
`<SECTION>title</SECTION>` newline trimmed-content block per title, joined
by newlines); on the two-section `ls` document exactly two records are
produced, the first serializing to the stated input and output strings. -/
theorem C5_serializer :
    (∀ (sections : List (Str × Str)) (p : List Str × List Str),
        p ∈ generate_combinations (sections.map Prod.fst) →
        p.1.Sublist (sections.map Prod.fst) ∧
          p.2.Sublist (sections.map Prod.fst)) ∧
    entrySamples [("NAME".toList, "ls - list directory contents".toList),
        ("OPTIONS".toList, "-a  do not ignore entries starting with .".toList)] =
      [("<SECTION>NAME</SECTION>\nls - list directory contents".toList,
        "<SECTION>OPTIONS</SECTION>\n-a  do not ignore entries starting with .".toList),
       ("<SECTION>OPTIONS</SECTION>\n-a  do not ignore entries starting with .".toList,
        "<SECTION>NAME</SECTION>\nls - list directory contents".toList)] := by
  constructor
  · intro sections p hp
    obtain ⟨r, _, _, hc, hfil⟩ := mem_generate_combinations hp
    refine ⟨mem_combinations_sublist r _ p.1 hc, ?_⟩
    rw [hfil]
    exact List.filter_sublist _
  · decide

theorem C5_witness :
    (["NAME".toList], ["OPTIONS".toList]).1.Sublist
        ([("NAME".toList, "x".toList), ("OPTIONS".toList, "y".toList)].map Prod.fst) ∧
    (["NAME".toList], ["OPTIONS".toList]).2.Sublist
        ([("NAME".toList, "x".toList), ("OPTIONS".toList, "y".toList)].map Prod.fst) :=
  C5_serializer.1 [("NAME".toList, "x".toList), ("OPTIONS".toList, "y".toList)]
    (["NAME".toList], ["OPTIONS".toList]) (by decide)

/-- C2 (amended): the aligner locates every title by its first occurrence
searched from the beginning of the rendered text (offset 0), not from a
monotonically advancing cursor, so a recurring or lexically overlapping
title can match an occurrence before the position reached by the previous
title; when every title's first occurrence lies at or after the end of the
previous title's occurrence, the mapping coincides with the spec's
cursor-based algorithm (`cursorAlign`). -/
theorem C2_search_from_start_agrees_when_ordered (cleaned : Str)
    (titles : List Str) (h : firstOccursFrom cleaned titles 0 = true) :
    mappedSections cleaned titles = cursorAlign cleaned 0 titles :=
  (cursorAlign_eq_mappedSections cleaned titles 0 h).symm

theorem C2_witness :
    firstOccursFrom "NAME text OPTIONS stuff".toList
        ["NAME".toList, "OPTIONS".toList] 0 = true ∧
    mappedSections "NAME text OPTIONS stuff".toList
        ["NAME".toList, "OPTIONS".toList] =
      cursorAlign "NAME text OPTIONS stuff".toList 0
        ["NAME".toList, "OPTIONS".toList] :=
  ⟨by decide, C2_search_from_start_agrees_when_ordered
    "NAME text OPTIONS stuff".toList ["NAME".toList, "OPTIONS".toList] (by decide)⟩

/-- C2 counterexample: with parsed titles `["AB", "B"]` and rendered text
`"B AB x B y"`, the code's mapping differs from the cursor-based mapping
the claim describes: the code matches title `"B"` at offset 0, before the
cursor position reached after aligning `"AB"`, so its content starts at an
occurrence before the cursor; the cursor algorithm instead takes the `"B"`
at offset 7 and yields content `"y"`. -/
theorem C2_counterexample :
    mappedSections "B AB x B y".toList ["AB".toList, "B".toList] ≠
      cursorAlign "B AB x B y".toList 0 ["AB".toList, "B".toList] := by
  decide

/-- C3 (amended): when every title's first occurrence in the rendered text
lies at or after the end of the previous title's occurrence and no title is
empty, the aligner retains every title in document order and the content
slices (whose start offsets and Python end indices `mappedSectionsAux`
reports, the emitted content being the trimmed slice between them) are
non-overlapping and in strictly increasing offset order; without that
condition the slices can overlap and appear out of order (see the
counterexample). -/
theorem C3_slice_order (cleaned : Str) (titles : List Str)
    (hocc : firstOccursFrom cleaned titles 0 = true)
    (hne : ∀ t, t ∈ titles → t ≠ []) :
    (mappedSectionsAux cleaned titles).map (fun x => x.1) = titles ∧
    List.Chain' (fun a b => a.2.2 ≤ (b.2.1 : Int) ∧ a.2.1 < b.2.1)
      (mappedSectionsAux cleaned titles) := by
  obtain ⟨h1, h2, _⟩ := mappedSectionsAux_ordered cleaned titles 0 hocc hne
  exact ⟨h1, h2⟩

theorem C3_witness :
    (mappedSectionsAux "NAME text OPTIONS stuff".toList
        ["NAME".toList, "OPTIONS".toList]).map (fun x => x.1) =
      ["NAME".toList, "OPTIONS".toList] ∧
    List.Chain' (fun a b => a.2.2 ≤ (b.2.1 : Int) ∧ a.2.1 < b.2.1)
      (mappedSectionsAux "NAME text OPTIONS stuff".toList
        ["NAME".toList, "OPTIONS".toList]) :=
  C3_slice_order "NAME text OPTIONS stuff".toList
    ["NAME".toList, "OPTIONS".toList] (by decide) (by decide)

/-- C3 counterexample: with parsed titles `["AB", "B"]` and rendered text
`"B AB x B y"`, the aligner produces spans `[("AB", 4, 7), ("B", 1, 10)]`:
the second retained section's slice starts at offset 1, before (and
overlapping) the first section's slice `[4, 7)`, so the slices are neither
non-overlapping nor in increasing offset order. -/
theorem C3_counterexample :
    ¬ List.Chain' (fun a b => a.2.2 ≤ (b.2.1 : Int) ∧ a.2.1 < b.2.1)
        (mappedSectionsAux "B AB x B y".toList ["AB".toList, "B".toList]) := by
  have h : mappedSectionsAux "B AB x B y".toList ["AB".toList, "B".toList] =
      [("AB".toList, 4, 7), ("B".toList, 1, 10)] := by decide
  intro hch
  rw [h, List.chain'_cons] at hch
  exact absurd hch.1.2 (by decide)

/-- C7: a parsed title that does not occur in the rendered text is absent
from the aligner's output mapping while all remaining locatable titles are
still processed (the retained keys are exactly the locatable titles, in
document order); in particular a document with two parsed titles of which
one is missing from the rendered text yields a mapping containing exactly
the one locatable section. -/
theorem C7_missing_title_dropped (cleaned : Str) (titles : List Str) :
    ((mappedSections cleaned titles).map Prod.fst =
      titles.filter (fun t => (findFrom t cleaned 0).isSome)) ∧
    (∀ t, findFrom t cleaned 0 = none →
      ∀ c, (t, c) ∉ mappedSections cleaned titles) ∧
    mappedSections "NAME x y".toList ["NAME".toList, "OPTIONS".toList] =
      [("NAME".toList, "x".toList)] := by
  refine ⟨mappedSections_keys cleaned titles, ?_, by decide⟩
  intro t hnone c hc
  have hk := List.mem_map_of_mem Prod.fst hc
  rw [mappedSections_keys, List.mem_filter, hnone] at hk
  simp at hk

theorem C7_witness :
    ("OPTIONS".toList, "x".toList) ∉
      mappedSections "NAME x y".toList ["NAME".toList, "OPTIONS".toList] :=
  (C7_missing_title_dropped "NAME x y".toList
    ["NAME".toList, "OPTIONS".toList]).2.1 "OPTIONS".toList (by decide) "x".toList

/-- C9: for every non-final retained title whose own title occurs in the
rendered text but whose successor title is not found at or after the
title's content start, `find` returns `-1` and the Python slice
`cleaned_content[start:-1]` excludes the final character of the rendered
text: the emitted content is the trimmed slice from just after the title's
occurrence up to but excluding the last character (under distinct titles it
is the unique content emitted for that title). -/
theorem C9_missing_next_drops_last_char (cleaned : Str) (pre : List Str)
    (t next : Str) (rest : List Str) (p : Nat)
    (hp : findFrom t cleaned 0 = some p)
    (hnext : findFrom next cleaned (p + t.length) = none) :
    (t, pyStrip ((cleaned.take (cleaned.length - 1)).drop (p + t.length))) ∈
      mappedSections cleaned (pre ++ t :: next :: rest) ∧
    ((pre ++ t :: next :: rest).Nodup →
      ∀ c, (t, c) ∈ mappedSections cleaned (pre ++ t :: next :: rest) →
        c = pyStrip ((cleaned.take (cleaned.length - 1)).drop (p + t.length))) := by
  have hmem0 := mappedSectionsAux_mem_append cleaned pre t next rest p hp hnext
  have hmem : (t, pyStrip ((cleaned.take (cleaned.length - 1)).drop (p + t.length))) ∈
      mappedSections cleaned (pre ++ t :: next :: rest) := by
    rw [mappedSections]
    have hm := List.mem_map_of_mem
      (fun x => (x.1, pyStrip (pySlice cleaned x.2.1 x.2.2))) hmem0
    simpa [pySlice_neg_one] using hm
  refine ⟨hmem, ?_⟩
  intro hnd c hc
  have hknd : ((mappedSections cleaned (pre ++ t :: next :: rest)).map Prod.fst).Nodup := by
    rw [mappedSections_keys]
    exact hnd.filter _
  exact assoc_value_eq _ hknd t c _ hc hmem

theorem C9_witness :
    ("NAME".toList,
        pyStrip (("NAME x y".toList.take ("NAME x y".toList.length - 1)).drop
          (0 + "NAME".toList.length))) ∈
      mappedSections "NAME x y".toList
        ([] ++ "NAME".toList :: "OPTIONS".toList :: []) :=
  (C9_missing_next_drops_last_char "NAME x y".toList [] "NAME".toList
    "OPTIONS".toList [] 0 (by decide) (by decide)).1

/-- C8 (amended): given the header matches in document order (non-empty
matches, non-overlapping, within the text), the raw content spans are
produced in document order and are non-overlapping — each span starts at
its own header match's end offset and ends at the start offset of the NEXT
HEADER MATCH (not at the next span's start offset), the last span ending at
the end of the raw text — so adjacent spans are separated by exactly the
next header line rather than being contiguous. -/
theorem C8_span_offsets (len : Nat) (m : ReMatch) (ms : List ReMatch)
    (hch : List.Chain' (fun a b => a.mEnd ≤ b.mStart) (m :: ms))
    (hwf : ∀ x ∈ m :: ms, x.mStart ≤ x.mEnd ∧ x.mEnd ≤ len) :
    (sectionSpans len (m :: ms)).map Prod.fst = (m :: ms).map ReMatch.mEnd ∧
    (sectionSpans len (m :: ms)).map Prod.snd = ms.map ReMatch.mStart ++ [len] ∧
    List.Chain' (fun a b => a.2 ≤ b.1) (sectionSpans len (m :: ms)) ∧
    ∀ sp ∈ sectionSpans len (m :: ms), sp.1 ≤ sp.2 :=
  sectionSpans_struct len m ms hch hwf

theorem C8_witness :
    (sectionSpans 15 [ReMatch.mk 0 5 ['A'], ReMatch.mk 8 13 ['B']]).map Prod.fst =
      ([ReMatch.mk 0 5 ['A'], ReMatch.mk 8 13 ['B']]).map ReMatch.mEnd ∧
    (sectionSpans 15 [ReMatch.mk 0 5 ['A'], ReMatch.mk 8 13 ['B']]).map Prod.snd =
      [ReMatch.mk 8 13 ['B']].map ReMatch.mStart ++ [15] ∧
    List.Chain' (fun a b => a.2 ≤ b.1)
      (sectionSpans 15 [ReMatch.mk 0 5 ['A'], ReMatch.mk 8 13 ['B']]) ∧
    ∀ sp ∈ sectionSpans 15 [ReMatch.mk 0 5 ['A'], ReMatch.mk 8 13 ['B']],
      sp.1 ≤ sp.2 :=
  C8_span_offsets 15 (ReMatch.mk 0 5 ['A']) [ReMatch.mk 8 13 ['B']]
    (List.chain'_cons'.mpr ⟨fun y hy => by
      rw [List.head?_cons, Option.mem_some_iff] at hy
      subst hy
      decide, List.chain'_singleton _⟩)
    (by decide)

/-- C8 counterexample: on the raw groff text `".SH A\nx\n.SH B\ny"` (length
15) the section-header regex matches occupy offsets `[0, 5)` and `[8, 13)`,
the computed spans are `[(5, 8), (13, 15)]`, and the first span's end
offset (8) is not the second span's start offset (13): adjacent spans are
separated by the next header line, refuting "the earlier span's end offset
equals the later span's start offset". -/
theorem C8_counterexample :
    ¬ List.Chain' (fun a b => a.2 = b.1)
        (sectionSpans 15 [ReMatch.mk 0 5 ['A'], ReMatch.mk 8 13 ['B']]) := by
  have h : sectionSpans 15 [ReMatch.mk 0 5 ['A'], ReMatch.mk 8 13 ['B']] =
      [(5, 8), (13, 15)] := by decide
  intro hch
  rw [h, List.chain'_cons] at hch
  exact absurd hch.1 (by decide)
